import Mathlib

/-!
Verification of the `rloc` line-counting engine against its specification.

The definitions below are a shallow embedding of the Rust sources:
  * `src/counter.rs`  — the per-line classifier state machine, the file
    counter, the binary probe and the content hash consumers;
  * `src/stats.rs`    — the per-language aggregation (`Summary::from_file_stats`);
  * `src/lib.rs`      — the parallel aggregation pipeline of
    `analyze_with_config` (dedup by content hash, drop zero-total files);
  * `src/main.rs`     — the CLI pipeline (no dedup stage);
  * `src/languages.rs`— `detect_language` and representative registry entries;
  * `src/walker.rs`   — the `skip_uniqueness` configuration field.

Modelling conventions: machine integers (`u32`, `u64`, `usize`) become `Nat`
(no arithmetic here ever overflows in the source ranges we prove about; the
single `depth - 1` subtraction is guarded by the `depth ≥ 1` invariant proved
below); Rust strings become Lean `String` / `List Char` (byte-prefix tests at
character boundaries of valid UTF-8 coincide with character-list prefix tests,
and the one byte-length test in the source is modelled with `String.utf8ByteSize`);
file I/O becomes explicit data (a file is its list of physical lines, the
binary probe sees the byte list); Rust's Unicode `char::is_whitespace` and
`to_lowercase` are modelled with Lean's `Char.isWhitespace` / `Char.toLower`.
The character loop of `classify_line` consumes at least one character per
iteration; it is embedded with an explicit fuel argument (instantiated with
the line length, which is always sufficient) so that it is structurally
recursive and computable by the kernel.
-/

namespace Rloc

/-- Embedding of `struct Language` from `src/languages.rs` (the `raw_string_*`
fields are dead in the source — `#[allow(dead_code)]` — and are omitted). -/
structure Language where
  name : String
  line_comments : List String
  block_comment_start : Option String
  block_comment_end : Option String
  nested_comments : Bool
  string_delimiters : List String
deriving DecidableEq

/-- Embedding of `enum State` from `src/counter.rs`:
`Code`, `BlockComment { depth: u32 }`, `String { delimiter: char }`. -/
inductive CState where
  | code : CState
  | block : Nat → CState
  | str : Char → CState
deriving DecidableEq

/-- Embedding of `enum LineType` from `src/counter.rs`. -/
inductive LineType where
  | codeL : LineType
  | commentL : LineType
  | mixedL : LineType
  | blankL : LineType
deriving DecidableEq

/-- `remaining.starts_with(tok)` from the Rust source, on the character-list
view of the remaining slice. -/
def tokenMatches (t : String) (cs : List Char) : Bool :=
  t.toList.isPrefixOf cs

/-- Number of characters the Rust loop consumes when it advances past token
`t`: one from the main `chars.next()` plus `t.chars().count().saturating_sub(1)`
from the inner skip loop, i.e. `max |t| 1`. -/
def tokenAdvance (t : String) : Nat :=
  max t.toList.length 1

/-- The `Code`-state test `remaining.starts_with(block_start)` guarded by
`if let Some(block_start) = lang.block_comment_start`. -/
def blockStartMatch (lang : Language) (cs : List Char) : Bool :=
  match lang.block_comment_start with
  | some t => tokenMatches t cs
  | none => false

/-- The `BlockComment`-state test `remaining.starts_with(block_end)` guarded by
`if let Some(block_end) = lang.block_comment_end`. -/
def blockEndMatch (lang : Language) (cs : List Char) : Bool :=
  match lang.block_comment_end with
  | some t => tokenMatches t cs
  | none => false

/-- Characters consumed when advancing past the block-open token. -/
def startAdvance (lang : Language) : Nat :=
  match lang.block_comment_start with
  | some t => tokenAdvance t
  | none => 1

/-- Characters consumed when advancing past the block-close token. -/
def endAdvance (lang : Language) : Nat :=
  match lang.block_comment_end with
  | some t => tokenAdvance t
  | none => 1

/-- The line-comment scan `for &line_comment in lang.line_comments
{ if remaining.starts_with(line_comment) ... }`. -/
def lineCommentMatch (lang : Language) (cs : List Char) : Bool :=
  lang.line_comments.any (fun t => tokenMatches t cs)

/-- The string-delimiter scan `for &delim in lang.string_delimiters
{ if remaining.starts_with(delim) && delim.len() == 1 ... }` (`delim.len()` is
the byte length). -/
def delimMatch (lang : Language) (cs : List Char) : Bool :=
  lang.string_delimiters.any (fun d => tokenMatches d cs && d.utf8ByteSize == 1)

/-- End-of-line reset from `classify_line`: `if matches!(state, State::String ..)
{ state = State::Code; }`. -/
def finishState : CState → CState
  | .str _ => .code
  | s => s

/-- The `(has_code, has_comment)` → line-kind table at the end of
`classify_line`. -/
def lineKind (hasCode hasComment : Bool) : LineType :=
  match hasCode, hasComment with
  | true, true => .mixedL
  | true, false => .codeL
  | false, true => .commentL
  | false, false => .blankL

/-- The `while let Some((byte_idx, c)) = chars.next()` loop of `classify_line`
(`src/counter.rs` lines 117–195), with explicit fuel; each iteration consumes
at least one character, so fuel `cs.length` reproduces the source loop. -/
def classifyLoop (lang : Language) : Nat → List Char → CState → Bool → Bool → CState × LineType
  | 0, _, state, hasCode, hasComment => (finishState state, lineKind hasCode hasComment)
  | _ + 1, [], state, hasCode, hasComment => (finishState state, lineKind hasCode hasComment)
  | n + 1, c :: rest, state, hasCode, hasComment =>
    match state with
    | .code =>
      if c.isWhitespace then
        classifyLoop lang n rest .code hasCode hasComment
      else if blockStartMatch lang (c :: rest) then
        classifyLoop lang n ((c :: rest).drop (startAdvance lang)) (.block 1) hasCode true
      else if lineCommentMatch lang (c :: rest) then
        (.code, if hasCode then .mixedL else .commentL)
      else if (c == '"' || c == '\'') && delimMatch lang (c :: rest) then
        classifyLoop lang n rest (.str c) true hasComment
      else
        classifyLoop lang n rest .code true hasComment
    | .block depth =>
      if blockEndMatch lang (c :: rest) then
        classifyLoop lang n ((c :: rest).drop (endAdvance lang))
          (if depth - 1 = 0 then .code else .block (depth - 1)) hasCode hasComment
      else if lang.nested_comments && blockStartMatch lang (c :: rest) then
        classifyLoop lang n ((c :: rest).drop (startAdvance lang)) (.block (depth + 1)) hasCode hasComment
      else
        classifyLoop lang n rest (.block depth) hasCode hasComment
    | .str delim =>
      if c == '\\' then
        classifyLoop lang n (rest.drop 1) (.str delim) hasCode hasComment
      else if c == delim then
        classifyLoop lang n rest .code hasCode hasComment
      else
        classifyLoop lang n rest (.str delim) hasCode hasComment

/-- Whether a state is a `BlockComment` (the `matches!(state, State::BlockComment {..})`
test). -/
def CState.isBlock : CState → Bool
  | .block _ => true
  | _ => false

/-- Embedding of `classify_line(line, initial_state, lang)` from `src/counter.rs`:
`has_code := false`, `has_comment := matches!(state, BlockComment)`. -/
def classify_line (line : List Char) (initial_state : CState) (lang : Language) : CState × LineType :=
  classifyLoop lang line.length line initial_state false initial_state.isBlock

/-- Embedding of `struct FileStats` from `src/counter.rs`. -/
structure FileStats where
  path : String
  language : String
  code : Nat
  comments : Nat
  blanks : Nat
deriving DecidableEq

/-- `FileStats::total`. -/
def FileStats.total (s : FileStats) : Nat :=
  s.code + s.comments + s.blanks

/-- Rust's `str::trim` (drop leading and trailing whitespace) on the
character-list view of a line. -/
def trimChars (cs : List Char) : List Char :=
  ((cs.dropWhile Char.isWhitespace).reverse.dropWhile Char.isWhitespace).reverse

/-- The `match line_type` tally in `count_lines`: `Code` and `Mixed` increment
`code`, `Comment` increments `comments`, `Blank` increments `blanks`. -/
def tally (stats : FileStats) : LineType → FileStats
  | .codeL => { stats with code := stats.code + 1 }
  | .commentL => { stats with comments := stats.comments + 1 }
  | .mixedL => { stats with code := stats.code + 1 }
  | .blankL => { stats with blanks := stats.blanks + 1 }

/-- The main line loop of `count_lines` (`src/counter.rs` lines 66–96): blank
trimmed lines count as comments inside a block comment and as blanks otherwise;
other lines go through the classifier, threading the state. -/
def countLoop (lang : Language) : List String → CState → FileStats → CState × FileStats
  | [], st, stats => (st, stats)
  | l :: ls, st, stats =>
    let trimmed := trimChars l.toList
    if trimmed.isEmpty then
      match st with
      | .block _ => countLoop lang ls st { stats with comments := stats.comments + 1 }
      | _ => countLoop lang ls st { stats with blanks := stats.blanks + 1 }
    else
      let r := classify_line trimmed st lang
      countLoop lang ls r.1 (tally stats r.2)

/-- The fast path of `count_lines` for languages with no comment syntax. -/
def fastLoop : List String → FileStats → FileStats
  | [], stats => stats
  | l :: ls, stats =>
    if (trimChars l.toList).isEmpty then fastLoop ls { stats with blanks := stats.blanks + 1 }
    else fastLoop ls { stats with code := stats.code + 1 }

/-- Embedding of `count_lines` from `src/counter.rs`. A file that opened
successfully is represented by its binary judgement `isBin` (the result of
`is_binary`) and the list of physical lines read without error (per-line read
errors are `continue`d over in the source, so they simply do not appear in
`lines`). -/
def count_lines (path : String) (isBin : Bool) (lines : List String) (lang : Language) : FileStats :=
  if isBin then
    { path := path, language := lang.name, code := 0, comments := 0, blanks := 0 }
  else
    let init : FileStats :=
      { path := path, language := lang.name, code := 0, comments := 0, blanks := 0 }
    let has_comments := !lang.line_comments.isEmpty || lang.block_comment_start.isSome
    if !has_comments then fastLoop lines init
    else (countLoop lang lines .code init).2

/-- Embedding of `is_binary` from `src/counter.rs`: the probe reads at most
8192 bytes (the single `read` into the 8 KiB buffer is modelled as filling it
as far as the content allows); a zero-byte read is not binary; otherwise the
file is binary iff the NUL count exceeds `max(bytes_read / 10, 1)`. -/
def is_binary (content : List Nat) : Bool :=
  let buffer := content.take 8192
  let bytes_read := buffer.length
  if bytes_read = 0 then false
  else
    let null_count := buffer.countP (fun b => b == 0)
    let binary_threshold := bytes_read / 10
    decide (null_count > max binary_threshold 1)

/-! ### C1: per-file totals -/

theorem tally_total (stats : FileStats) (ty : LineType) :
    (tally stats ty).total = stats.total + 1 := by
  cases ty <;> simp only [tally, FileStats.total] <;> omega

theorem countLoop_total (lang : Language) (ls : List String) :
    ∀ st stats, ((countLoop lang ls st stats).2).total = stats.total + ls.length := by
  induction ls with
  | nil => intro st stats; simp [countLoop]
  | cons l ls ih =>
    intro st stats
    simp only [countLoop]
    split
    · split <;> rw [ih] <;> simp only [FileStats.total, List.length_cons] <;> omega
    · rw [ih, tally_total]; simp only [List.length_cons]; omega

theorem fastLoop_total (ls : List String) :
    ∀ stats, (fastLoop ls stats).total = stats.total + ls.length := by
  induction ls with
  | nil => intro stats; simp [fastLoop]
  | cons l ls ih =>
    intro stats
    simp only [fastLoop]
    split <;> rw [ih] <;> simp only [FileStats.total, List.length_cons] <;> omega

/-- C1: for every file that opens successfully, is not judged binary, and whose
lines are all read without error, the `FileStats` returned by `count_lines`
satisfies `code + comments + blanks = number of physical lines`; if the file is
judged binary, all three counters are 0. -/
theorem C1_count_lines_total (path : String) (lines : List String) (lang : Language) :
    (count_lines path false lines lang).code + (count_lines path false lines lang).comments
      + (count_lines path false lines lang).blanks = lines.length ∧
    (count_lines path true lines lang).code = 0 ∧
    (count_lines path true lines lang).comments = 0 ∧
    (count_lines path true lines lang).blanks = 0 := by
  refine ⟨?_, by simp [count_lines], by simp [count_lines], by simp [count_lines]⟩
  show (count_lines path false lines lang).total = lines.length
  simp only [count_lines, if_neg (by simp : ¬(false = true))]
  split
  · rw [fastLoop_total]; simp [FileStats.total]
  · rw [countLoop_total]; simp [FileStats.total]

/-! ### Concrete rulesets embedded from the `LANGUAGES` table in `src/languages.rs` -/

/-- `"Rust" => Language::c_style("Rust").with_nested_comments()`. -/
def rustLang : Language :=
  { name := "Rust", line_comments := ["//"], block_comment_start := some "/*",
    block_comment_end := some "*/", nested_comments := true, string_delimiters := ["\"", "'"] }

/-- The `"Python"` entry of `LANGUAGES`. -/
def pythonLang : Language :=
  { name := "Python", line_comments := ["#"], block_comment_start := some "\"\"\"",
    block_comment_end := some "\"\"\"", nested_comments := false, string_delimiters := ["\"", "'"] }

/-- `"Makefile" => Language::shell_style("Makefile")`. -/
def makefileLang : Language :=
  { name := "Makefile", line_comments := ["#"], block_comment_start := none,
    block_comment_end := none, nested_comments := false, string_delimiters := ["\"", "'"] }

/-- `"CMake" => Language::shell_style("CMake")`. -/
def cmakeLang : Language :=
  { name := "CMake", line_comments := ["#"], block_comment_start := none,
    block_comment_end := none, nested_comments := false, string_delimiters := ["\"", "'"] }

/-- `"Text" => Language::new("Text")` (no comment syntax at all). -/
def textLang : Language :=
  { name := "Text", line_comments := [], block_comment_start := none,
    block_comment_end := none, nested_comments := false, string_delimiters := ["\"", "'"] }

/-- `"C# Generated" => Language::c_style("C# Generated")`. -/
def csGeneratedLang : Language :=
  { name := "C# Generated", line_comments := ["//"], block_comment_start := some "/*",
    block_comment_end := some "*/", nested_comments := false, string_delimiters := ["\"", "'"] }

/-! ### C10: the classifier state invariant -/

/-- The invariant the spec states for the state threaded between lines:
`Code`, or `BlockComment` with depth at least 1 — never `String`, never
`BlockComment` at depth 0. -/
def goodState (s : CState) : Prop :=
  s = .code ∨ ∃ d, 1 ≤ d ∧ s = .block d

/-- States reachable in the middle of a line: additionally `String`. -/
def okMid (s : CState) : Prop :=
  goodState s ∨ ∃ q, s = .str q

theorem goodState_finish (s : CState) (h : okMid s) : goodState (finishState s) := by
  rcases h with h | ⟨q, rfl⟩
  · rcases h with rfl | ⟨d, hd, rfl⟩
    · exact Or.inl rfl
    · exact Or.inr ⟨d, hd, rfl⟩
  · exact Or.inl rfl

theorem classifyLoop_good (lang : Language) :
    ∀ (fuel : Nat) (cs : List Char) (s : CState) (hc hcm : Bool),
      okMid s → goodState (classifyLoop lang fuel cs s hc hcm).1 := by
  intro fuel
  induction fuel with
  | zero => intro cs s hc hcm h; exact goodState_finish s h
  | succ n ih =>
    intro cs s hc hcm h
    match cs with
    | [] => exact goodState_finish s h
    | c :: rest =>
      match s with
      | .code =>
        simp only [classifyLoop]
        split
        · exact ih _ _ _ _ (Or.inl (Or.inl rfl))
        · split
          · exact ih _ _ _ _ (Or.inl (Or.inr ⟨1, le_refl 1, rfl⟩))
          · split
            · exact Or.inl rfl
            · split
              · exact ih _ _ _ _ (Or.inr ⟨c, rfl⟩)
              · exact ih _ _ _ _ (Or.inl (Or.inl rfl))
      | .block depth =>
        simp only [classifyLoop]
        split
        · split
          · exact ih _ _ _ _ (Or.inl (Or.inl rfl))
          · exact ih _ _ _ _ (Or.inl (Or.inr ⟨depth - 1, by omega, rfl⟩))
        · split
          · exact ih _ _ _ _ (Or.inl (Or.inr ⟨depth + 1, by omega, rfl⟩))
          · rcases h with h | ⟨q, hq⟩
            · exact ih _ _ _ _ (Or.inl h)
            · cases hq
      | .str q =>
        simp only [classifyLoop]
        split
        · exact ih _ _ _ _ (Or.inr ⟨q, rfl⟩)
        · split
          · exact ih _ _ _ _ (Or.inl (Or.inl rfl))
          · exact ih _ _ _ _ (Or.inr ⟨q, rfl⟩)

theorem countLoop_good (lang : Language) (lines : List String) :
    ∀ (s : CState) (stats : FileStats),
      goodState s → goodState (countLoop lang lines s stats).1 := by
  induction lines with
  | nil => intro s stats h; exact h
  | cons l ls ih =>
    intro s stats h
    simp only [countLoop]
    split
    · split <;> exact ih _ _ h
    · exact ih _ _ (classifyLoop_good lang _ _ _ _ _ (Or.inl h))

/-- C10: for every ruleset, line, and incoming state that is `Code` or
`BlockComment` with depth ≥ 1, the outgoing state of `classify_line` is again
`Code` or `BlockComment` with depth ≥ 1 — never `String`, never depth 0; and
since the per-file initial state is `Code`, the state threaded between
consecutive lines of `count_lines`' loop always satisfies the invariant. -/
theorem C10_state_invariant :
    (∀ (lang : Language) (line : List Char) (s : CState),
        goodState s → goodState (classify_line line s lang).1) ∧
    (∀ (lang : Language) (lines : List String) (stats : FileStats),
        goodState (countLoop lang lines .code stats).1) :=
  ⟨fun lang line s h => classifyLoop_good lang line.length line s false s.isBlock (Or.inl h),
   fun lang lines stats => countLoop_good lang lines .code stats (Or.inl rfl)⟩

/-- Witness for C10 at a concrete input: the invariant holds after classifying
`"/* start"` from `Code` with the Rust ruleset. -/
theorem C10_witness :
    goodState (classify_line ("/* start".toList) .code rustLang).1 ∧
    goodState (countLoop rustLang ["fn main() {}", "/*", "x"] .code
      { path := "f.rs", language := "Rust", code := 0, comments := 0, blanks := 0 }).1 :=
  ⟨C10_state_invariant.1 rustLang ("/* start".toList) .code (Or.inl rfl),
   C10_state_invariant.2 rustLang ["fn main() {}", "/*", "x"] _⟩

/-! ### C6: an unclosed block comment comments out the rest of the file -/

/-- Depth tracking of the `BlockComment` branch of the classifier loop over one
line: `some d'` when the line is processed entirely inside the block comment
(ending at depth `d'`), `none` when the block-close token brings the depth back
to zero somewhere in the line (the state would return to `Code`). -/
def blockScan (lang : Language) : Nat → List Char → Nat → Option Nat
  | 0, _, d => some d
  | _ + 1, [], d => some d
  | n + 1, c :: rest, d =>
    if blockEndMatch lang (c :: rest) then
      if d - 1 = 0 then none
      else blockScan lang n ((c :: rest).drop (endAdvance lang)) (d - 1)
    else if lang.nested_comments && blockStartMatch lang (c :: rest) then
      blockScan lang n ((c :: rest).drop (startAdvance lang)) (d + 1)
    else
      blockScan lang n rest d

/-- Threading `blockScan` through the lines the way `count_lines` does
(trimmed-empty lines do not change the state): `isSome` says the block comment
opened before these lines is never closed in any of them. -/
def fileBlockScan (lang : Language) : List String → Nat → Option Nat
  | [], d => some d
  | l :: ls, d =>
    let t := trimChars l.toList
    if t.isEmpty then fileBlockScan lang ls d
    else
      match blockScan lang t.length t d with
      | none => none
      | some d' => fileBlockScan lang ls d'

theorem classifyLoop_of_blockScan (lang : Language) :
    ∀ (fuel : Nat) (cs : List Char) (d d' : Nat) (hc hcm : Bool),
      blockScan lang fuel cs d = some d' →
      classifyLoop lang fuel cs (.block d) hc hcm = (.block d', lineKind hc hcm) := by
  intro fuel
  induction fuel with
  | zero =>
    intro cs d d' hc hcm h
    simp only [blockScan, Option.some.injEq] at h
    subst h
    rfl
  | succ n ih =>
    intro cs d d' hc hcm h
    match cs with
    | [] =>
      simp only [blockScan, Option.some.injEq] at h
      subst h
      rfl
    | c :: rest =>
      simp only [blockScan] at h
      simp only [classifyLoop]
      split at h
      · split at h
        · exact absurd h (by simp)
        · rename_i h1 h2
          rw [if_pos h1, if_neg h2]
          exact ih _ _ _ _ _ h
      · rename_i h1
        rw [if_neg h1]
        split at h
        · rename_i h2
          rw [if_pos h2]
          exact ih _ _ _ _ _ h
        · rename_i h2
          rw [if_neg h2]
          exact ih _ _ _ _ _ h

/-- C6: if a block comment is open at the start of some suffix of the file's
lines and the block-close token never brings the depth back to zero in that
suffix (`fileBlockScan` stays `some`), then every one of those lines is tallied
as a comment: `code` and `blanks` do not change, `comments` grows by the number
of remaining lines. -/
theorem C6_unclosed_block_comment (lang : Language) (lines : List String) :
    ∀ (d : Nat) (stats : FileStats),
      (fileBlockScan lang lines d).isSome →
      (countLoop lang lines (.block d) stats).2.code = stats.code ∧
      (countLoop lang lines (.block d) stats).2.comments = stats.comments + lines.length ∧
      (countLoop lang lines (.block d) stats).2.blanks = stats.blanks := by
  induction lines with
  | nil => intro d stats _; simp [countLoop]
  | cons l ls ih =>
    intro d stats h
    simp only [fileBlockScan] at h
    simp only [countLoop]
    split
    · rename_i hemp
      rw [if_pos hemp] at h
      obtain ⟨h1, h2, h3⟩ := ih d { stats with comments := stats.comments + 1 } h
      dsimp only at h1 h2 h3
      refine ⟨h1, ?_, h3⟩
      simp only [List.length_cons]
      omega
    · rename_i hemp
      rw [if_neg hemp] at h
      rcases hscan : blockScan lang (trimChars l.toList).length (trimChars l.toList) d with _ | d'
      · rw [hscan] at h; simp at h
      · rw [hscan] at h
        have hcl : classify_line (trimChars l.toList) (.block d) lang = (.block d', .commentL) := by
          have := classifyLoop_of_blockScan lang (trimChars l.toList).length (trimChars l.toList) d d'
            false (CState.isBlock (.block d)) hscan
          simpa [classify_line, lineKind, CState.isBlock] using this
        rw [hcl]
        obtain ⟨h1, h2, h3⟩ := ih d' (tally stats .commentL) h
        rw [show (tally stats LineType.commentL).code = stats.code from rfl] at h1
        rw [show (tally stats LineType.commentL).comments = stats.comments + 1 from rfl] at h2
        rw [show (tally stats LineType.commentL).blanks = stats.blanks from rfl] at h3
        refine ⟨h1, ?_, h3⟩
        simp only [List.length_cons]
        omega

/-- Witness for C6 at a concrete input: with the Rust ruleset, starting inside
an unclosed block comment, all three remaining lines (one blank, one plain, one
opening a nested comment) are tallied as comments. -/
theorem C6_witness :
    (fileBlockScan rustLang ["hello", "", "more /* nested"] 1).isSome = true ∧
    (countLoop rustLang ["hello", "", "more /* nested"] (.block 1)
      { path := "f.rs", language := "Rust", code := 0, comments := 0, blanks := 0 }).2.comments
      = 0 + 3 :=
  ⟨by decide,
   (C6_unclosed_block_comment rustLang ["hello", "", "more /* nested"] 1
      { path := "f.rs", language := "Rust", code := 0, comments := 0, blanks := 0 }
      (by decide)).2.1⟩

/-! ### C7: the binary probe -/

/-- C7: the binary probe examines at most 8192 bytes (the model's `take 8192`)
and judges the file binary exactly when the NUL count among the bytes read
exceeds `max(1, bytes_read / 10)`; a zero-byte file is never judged binary; a
file judged binary yields a zero-count stat rather than an error. -/
theorem C7_binary_probe (content : List Nat) (path : String) (lines : List String)
    (lang : Language) :
    (is_binary content = true ↔
      0 < (content.take 8192).length ∧
      (content.take 8192).countP (fun b => b == 0) > max 1 ((content.take 8192).length / 10)) ∧
    is_binary [] = false ∧
    (count_lines path true lines lang).code = 0 ∧
    (count_lines path true lines lang).comments = 0 ∧
    (count_lines path true lines lang).blanks = 0 := by
  refine ⟨?_, by simp [is_binary], by simp [count_lines], by simp [count_lines],
    by simp [count_lines]⟩
  simp only [is_binary]
  split
  · rename_i h0
    simp [h0]
  · rename_i h0
    simp only [decide_eq_true_eq, Nat.max_comm]
    constructor
    · intro h; exact ⟨Nat.pos_of_ne_zero h0, h⟩
    · intro h; exact h.2

/-! ### C4: the string-delimiter transition (holds only for quote characters) -/

/-- A custom ruleset with a backtick string delimiter, as the rule importer in
`src/custom_langs.rs` can produce (its `string_delimiters` field accepts
arbitrary one-character tokens). -/
def backtickLang : Language :=
  { name := "Custom", line_comments := ["#"], block_comment_start := none,
    block_comment_end := none, nested_comments := false, string_delimiters := ["`"] }

/-- Counterexample to C4 as stated: with the backtick ruleset, in `Code` state
at the character `` ` `` — a single-character delimiter of the ruleset's list,
with no block-open or line-comment token matching there — the classifier does
not transition to `String`: it treats the backtick as ordinary code, so the
`#` that follows still opens a line comment and the line is classified `Mixed`
(had the claimed transition happened, the loop would have continued in
`String` state and returned `Code`). -/
theorem C4_counterexample :
    delimMatch backtickLang ['`', '#'] = true ∧
    blockStartMatch backtickLang ['`', '#'] = false ∧
    lineCommentMatch backtickLang ['`', '#'] = false ∧
    Char.isWhitespace '`' = false ∧
    classifyLoop backtickLang 2 ['`', '#'] .code false false
      ≠ classifyLoop backtickLang 1 ['#'] (.str '`') true false ∧
    classify_line ['`', '#'] .code backtickLang = (.code, .mixedL) := by
  decide

/-- C4 (amended): the transition to `String{delimiter=c}` — setting `has_code`
and advancing — happens when the classifier in `Code` state reaches a character
`c` that is `"` or `'` and some single-byte delimiter of the ruleset's
string-delimiter list matches there (no block-open or line-comment token
matching first); for delimiter characters other than `"` and `'` the
transition does not occur. -/
theorem C4_string_delimiter (lang : Language) (c : Char) (rest : List Char) (n : Nat)
    (hc hcm : Bool) (hq : c = '"' ∨ c = '\'')
    (hbs : blockStartMatch lang (c :: rest) = false)
    (hlc : lineCommentMatch lang (c :: rest) = false)
    (hd : delimMatch lang (c :: rest) = true) :
    classifyLoop lang (n + 1) (c :: rest) .code hc hcm
      = classifyLoop lang n rest (.str c) true hcm := by
  have hws : c.isWhitespace = false := by rcases hq with rfl | rfl <;> decide
  have hq' : (c == '"' || c == '\'') = true := by rcases hq with rfl | rfl <;> decide
  simp [classifyLoop, hws, hbs, hlc, hd, hq']

/-- Witness for C4 (amended) at a concrete input: the Rust ruleset, a double
quote at the head of `"ab`. -/
theorem C4_witness :
    classifyLoop rustLang 3 ['"', 'a', 'b'] .code false false
      = classifyLoop rustLang 2 ['a', 'b'] (.str '"') true false :=
  C4_string_delimiter rustLang '"' ['a', 'b'] 2 false false (Or.inl rfl)
    (by decide) (by decide) (by decide)

/-! ### Embedding of `src/stats.rs`: `LanguageStats` and `Summary::from_file_stats` -/

/-- Embedding of `struct LanguageStats`. -/
structure LanguageStats where
  name : String
  files : Nat
  code : Nat
  comments : Nat
  blanks : Nat
deriving DecidableEq

/-- `LanguageStats::total`. -/
def LanguageStats.total (l : LanguageStats) : Nat :=
  l.code + l.comments + l.blanks

/-- `LanguageStats::add`. -/
def LanguageStats.add (e : LanguageStats) (fs : FileStats) : LanguageStats :=
  { e with
    files := e.files + 1
    code := e.code + fs.code
    comments := e.comments + fs.comments
    blanks := e.blanks + fs.blanks }

/-- One step of the grouping loop of `Summary::from_file_stats`: the
`by_language.entry(..).or_insert_with(..)` followed by `entry.add(file_stat)`,
on an association-list view of the hash map keyed by language name. -/
def addFile : List LanguageStats → FileStats → List LanguageStats
  | [], fs =>
    [LanguageStats.add { name := fs.language, files := 0, code := 0, comments := 0, blanks := 0 } fs]
  | e :: rest, fs =>
    if e.name = fs.language then e.add fs :: rest else e :: addFile rest fs

/-- The grouping loop of `from_file_stats`. The list holds one entry per
distinct language. Its order models `AHashMap::into_values()` by first
insertion; the real hash map yields its values in an unspecified order — the
sort below compares only `code`, so everything proved or refuted about tie
order must hold for the model's order if it is to hold for the code. -/
def aggregates (stats : List FileStats) : List LanguageStats :=
  stats.foldl addFile []

/-- The comparator of `languages.sort_by(|a, b| b.code.cmp(&a.code))`:
code descending, nothing else. -/
def codeDesc (a b : LanguageStats) : Prop :=
  b.code ≤ a.code

instance : DecidableRel codeDesc := fun a b => Nat.decLe b.code a.code

instance : IsTotal LanguageStats codeDesc := ⟨fun a b => Nat.le_total b.code a.code⟩

instance : IsTrans LanguageStats codeDesc := ⟨fun _ _ _ hab hbc => le_trans hbc hab⟩

/-- Rust's `sort_by` is a stable sort; a stable sort's output is uniquely
determined by the input order and the comparator, and insertion sort with
`codeDesc` is exactly that stable sort. -/
def sortLangs (l : List LanguageStats) : List LanguageStats :=
  List.insertionSort codeDesc l

/-- Embedding of `struct Summary` (the `elapsed` wall-time field is not
modelled). -/
structure Summary where
  languages : List LanguageStats
  total_files : Nat
  total_code : Nat
  total_comments : Nat
  total_blanks : Nat
  file_stats : List FileStats
deriving DecidableEq

/-- Embedding of `Summary::from_file_stats`. -/
def from_file_stats (stats : List FileStats) : Summary :=
  let languages := sortLangs (aggregates stats)
  { languages := languages
    total_files := (languages.map LanguageStats.files).sum
    total_code := (languages.map LanguageStats.code).sum
    total_comments := (languages.map LanguageStats.comments).sum
    total_blanks := (languages.map LanguageStats.blanks).sum
    file_stats := stats }

/-! ### C3: output ordering of the language aggregates -/

/-- Lexicographic strict order on character lists (the order of Rust's
`str` comparison restricted to the names appearing here). -/
def charListLtb : List Char → List Char → Bool
  | [], [] => false
  | [], _ :: _ => true
  | _ :: _, [] => false
  | a :: as, b :: bs => if a < b then true else if b < a then false else charListLtb as bs

/-- The ordering C3 claims for the output: code strictly descending, ties
broken by language name ascending. -/
def claimTieOrder (a b : LanguageStats) : Prop :=
  b.code < a.code ∨ (a.code = b.code ∧ charListLtb b.name.toList a.name.toList = false)

instance : DecidableRel claimTieOrder := fun a b => by
  unfold claimTieOrder
  infer_instance

/-- Two single-file inputs with equal `code` whose languages arrive in
reverse-alphabetical order. -/
def fsB : FileStats :=
  { path := "b.x", language := "B", code := 5, comments := 0, blanks := 0 }

/-- The alphabetically earlier of the two tied inputs. -/
def fsA : FileStats :=
  { path := "a.x", language := "A", code := 5, comments := 0, blanks := 0 }

/-- Counterexample to C3 as stated: `from_file_stats` sorts only by `code`
descending — the comparator `|a, b| b.code.cmp(&a.code)` never inspects names —
so two aggregates tied on `code` keep the (unspecified) hash-map value order;
here languages "B" and "A", tied at `code = 5`, come out as `["B", "A"]`,
which is not ordered by language name. -/
theorem C3_counterexample :
    (from_file_stats [fsB, fsA]).languages.map LanguageStats.name = ["B", "A"] ∧
    ¬ List.Pairwise claimTieOrder (from_file_stats [fsB, fsA]).languages := by
  decide

/-- C3 (amended): for every list of per-file stats, the language aggregates in
the `Summary` produced by the reduction are sorted by `code` descending; ties
on `code` are left in the hash map's (unspecified) value order — equal-code
aggregates are not ordered by language name, so the tie order is not
deterministic. -/
theorem C3_sorted_by_code (stats : List FileStats) :
    List.Sorted codeDesc (from_file_stats stats).languages :=
  List.sorted_insertionSort codeDesc (aggregates stats)

/-! ### Embedding of the aggregation pipeline of `analyze_with_config`
(`src/lib.rs` lines 225–241) -/

/-- One task of the parallel pipeline: the outcome of `compute_file_hash`
(`none` = `Err`) and of `count_lines` (`none` = `Err`) for one walked file. -/
structure TaskEntry where
  hash : Option Nat
  result : Option FileStats
deriving DecidableEq

/-- The `filter_map` body of `analyze_with_config`, run over the tasks in one
(scheduler-chosen) order, with the `DashSet` of seen hashes made explicit:
a successfully hashed task first inserts its hash and is skipped when the hash
was already present; the surviving tasks keep their stats when `count_lines`
succeeded with a positive total. -/
def pipeRun : List TaskEntry → List Nat → List FileStats
  | [], _ => []
  | e :: es, seen =>
    match e.hash with
    | some h =>
      if h ∈ seen then pipeRun es seen
      else
        match e.result with
        | some s => if 0 < s.total then s :: pipeRun es (h :: seen) else pipeRun es (h :: seen)
        | none => pipeRun es (h :: seen)
    | none =>
      match e.result with
      | some s => if 0 < s.total then s :: pipeRun es seen else pipeRun es seen
      | none => pipeRun es seen

/-- The same traversal keeping the surviving task entries themselves (used to
say which of several identical files was the one counted). -/
def pipeKept : List TaskEntry → List Nat → List TaskEntry
  | [], _ => []
  | e :: es, seen =>
    match e.hash with
    | some h =>
      if h ∈ seen then pipeKept es seen
      else
        match e.result with
        | some s => if 0 < s.total then e :: pipeKept es (h :: seen) else pipeKept es (h :: seen)
        | none => pipeKept es (h :: seen)
    | none =>
      match e.result with
      | some s => if 0 < s.total then e :: pipeKept es seen else pipeKept es seen
      | none => pipeKept es seen

/-- `analyze_with_config` after walking and resolving: dedup + count + filter,
then the `Summary::from_file_stats` reduction. -/
def analyze_with_config (entries : List TaskEntry) : Summary :=
  from_file_stats (pipeRun entries [])

/-! ### C9: every aggregate in the pipeline's summary is non-empty -/

theorem pipeRun_total_pos :
    ∀ (es : List TaskEntry) (seen : List Nat) (s : FileStats),
      s ∈ pipeRun es seen → 0 < s.total := by
  intro es
  induction es with
  | nil => intro seen s h; simp [pipeRun] at h
  | cons e es ih =>
    intro seen s h
    obtain ⟨eh, er⟩ := e
    rcases eh with _ | hh
    · rcases er with _ | st
      · simp only [pipeRun] at h
        exact ih seen s h
      · simp only [pipeRun] at h
        split at h
        · rcases List.mem_cons.mp h with rfl | h2
          · assumption
          · exact ih seen s h2
        · exact ih seen s h
    · rcases er with _ | st
      · simp only [pipeRun] at h
        split at h
        · exact ih seen s h
        · exact ih _ s h
      · simp only [pipeRun] at h
        split at h
        · exact ih seen s h
        · split at h
          · rcases List.mem_cons.mp h with rfl | h2
            · assumption
            · exact ih _ s h2
          · exact ih _ s h

theorem addFile_total_pos (fs : FileStats) (hfs : 0 < fs.total) :
    ∀ (acc : List LanguageStats), (∀ e ∈ acc, 0 < e.total) →
      ∀ e ∈ addFile acc fs, 0 < e.total := by
  intro acc
  induction acc with
  | nil =>
    intro _ e he
    simp only [addFile, List.mem_singleton] at he
    subst he
    simp only [LanguageStats.total, LanguageStats.add, FileStats.total] at hfs ⊢
    omega
  | cons a acc ih =>
    intro hacc e he
    simp only [addFile] at he
    split at he
    · rcases List.mem_cons.mp he with rfl | h2
      · have := hacc a (List.mem_cons_self a acc)
        simp only [LanguageStats.total, LanguageStats.add, FileStats.total] at this ⊢
        omega
      · exact hacc e (List.mem_cons_of_mem a h2)
    · rcases List.mem_cons.mp he with rfl | h2
      · exact hacc e (List.mem_cons_self e acc)
      · exact ih (fun x hx => hacc x (List.mem_cons_of_mem a hx)) e h2

theorem aggregates_total_pos :
    ∀ (stats : List FileStats) (acc : List LanguageStats),
      (∀ s ∈ stats, 0 < s.total) → (∀ e ∈ acc, 0 < e.total) →
      ∀ e ∈ stats.foldl addFile acc, 0 < e.total := by
  intro stats
  induction stats with
  | nil => intro acc _ hacc e he; exact hacc e he
  | cons s stats ih =>
    intro acc hstats hacc e he
    simp only [List.foldl_cons] at he
    exact ih (addFile acc s)
      (fun x hx => hstats x (List.mem_cons_of_mem s hx))
      (addFile_total_pos s (hstats s (List.mem_cons_self s stats)) acc hacc) e he

/-- C9: every language aggregate in the `Summary` returned by the aggregation
pipeline has `code + comments + blanks > 0` — zero-total files (empty or
binary) are filtered out before the reduction, so no aggregate with zero lines
appears. -/
theorem C9_no_empty_aggregates (entries : List TaskEntry) (l : LanguageStats)
    (hl : l ∈ (analyze_with_config entries).languages) : 0 < l.code + l.comments + l.blanks := by
  have hmem : l ∈ aggregates (pipeRun entries []) := by
    have hperm := List.perm_insertionSort codeDesc (aggregates (pipeRun entries []))
    exact hperm.mem_iff.mp hl
  exact aggregates_total_pos (pipeRun entries []) []
    (fun s hs => pipeRun_total_pos entries [] s hs)
    (by intro e he; simp at he) l hmem

/-- Witness for C9 at a concrete input: a single Rust file of one code line
yields the aggregate `Rust: 1 file, 1 code line`, whose total is positive. -/
theorem C9_witness :
    0 < ({ name := "Rust", files := 1, code := 1, comments := 0, blanks := 0 } : LanguageStats).code
        + ({ name := "Rust", files := 1, code := 1, comments := 0, blanks := 0 } : LanguageStats).comments
        + ({ name := "Rust", files := 1, code := 1, comments := 0, blanks := 0 } : LanguageStats).blanks :=
  C9_no_empty_aggregates
    [{ hash := some 1,
       result := some { path := "a.rs", language := "Rust", code := 1, comments := 0, blanks := 0 } }]
    { name := "Rust", files := 1, code := 1, comments := 0, blanks := 0 }
    (by decide)

/-! ### C2: deduplication — exactly one duplicate counted, and when totals are
order-independent -/

/-- The hashes the dedup set accepts (first occurrence wins), in encounter
order. -/
def newHashes : List TaskEntry → List Nat → List Nat
  | [], _ => []
  | e :: es, seen =>
    match e.hash with
    | some h => if h ∈ seen then newHashes es seen else h :: newHashes es (h :: seen)
    | none => newHashes es seen

/-- The three line counters of a per-file stat — the only parts of a
`FileStats` that enter the overall totals (`path` and `language` do not). -/
def countsOf (s : FileStats) : Nat × Nat × Nat :=
  (s.code, s.comments, s.blanks)

/-- Total of a counts triple; `cTotal (countsOf s) = s.total` definitionally. -/
def cTotal (c : Nat × Nat × Nat) : Nat :=
  c.1 + c.2.1 + c.2.2

/-- The line counters of one task are a function of its content hash: this is
what "files with byte-identical content" gives when every duplicate's
`count_lines` run produces the same counters (the hash is computed from the
bytes alone, but `count_lines` also depends on the detected language, so this
holds e.g. when the duplicates all resolve to the same ruleset; their `path`
fields may differ freely). -/
def hashConsistent (g : Nat → Option (Nat × Nat × Nat)) (e : TaskEntry) : Prop :=
  match e.hash with
  | some h => e.result.map countsOf = g h
  | none => True

instance (g : Nat → Option (Nat × Nat × Nat)) (e : TaskEntry) :
    Decidable (hashConsistent g e) :=
  match he : e.hash with
  | some h => decidable_of_iff (e.result.map countsOf = g h) (by unfold hashConsistent; rw [he])
  | none => isTrue (by unfold hashConsistent; rw [he]; trivial)

/-- The counters contributed by the accepted hashes. -/
def hashPart (g : Nat → Option (Nat × Nat × Nat)) (l : List Nat) : List (Nat × Nat × Nat) :=
  (l.filterMap g).filter (fun c => 0 < cTotal c)

/-- The stats contributed by the tasks whose hashing failed (they are never
deduplicated). -/
def noHashPart (es : List TaskEntry) : List FileStats :=
  ((es.filter (fun e => e.hash = none)).filterMap TaskEntry.result).filter
    (fun s => 0 < s.total)

theorem newHashes_nodup_notMem :
    ∀ (es : List TaskEntry) (seen : List Nat),
      (newHashes es seen).Nodup ∧ ∀ a ∈ newHashes es seen, a ∉ seen := by
  intro es
  induction es with
  | nil => intro seen; simp [newHashes]
  | cons e es ih =>
    intro seen
    obtain ⟨eh, er⟩ := e
    rcases eh with _ | h
    · exact ih seen
    · simp only [newHashes]
      split
    -- hash already seen
      · exact ih seen
      · rename_i hnot
        obtain ⟨ihn, ihm⟩ := ih (h :: seen)
        refine ⟨List.nodup_cons.mpr ⟨?_, ihn⟩, ?_⟩
        · intro hmem
          exact (ihm h hmem) (List.mem_cons_self h seen)
        · intro a ha
          rcases List.mem_cons.mp ha with rfl | ha2
          · exact hnot
          · intro hseen
            exact (ihm a ha2) (List.mem_cons_of_mem h hseen)

theorem newHashes_mem :
    ∀ (es : List TaskEntry) (seen : List Nat) (a : Nat),
      a ∈ newHashes es seen ↔ (some a ∈ es.map TaskEntry.hash ∧ a ∉ seen) := by
  intro es
  induction es with
  | nil => intro seen a; simp [newHashes]
  | cons e es ih =>
    intro seen a
    obtain ⟨eh, er⟩ := e
    rcases eh with _ | h
    · simp only [newHashes, List.map_cons, List.mem_cons]
      rw [ih seen a]
      constructor
      · rintro ⟨hm, hn⟩; exact ⟨Or.inr hm, hn⟩
      · rintro ⟨hm | hm, hn⟩
        · cases hm
        · exact ⟨hm, hn⟩
    · simp only [newHashes, List.map_cons, List.mem_cons]
      split
      · rename_i hseen
        rw [ih seen a]
        constructor
        · rintro ⟨hm, hn⟩; exact ⟨Or.inr hm, hn⟩
        · rintro ⟨hm | hm, hn⟩
          · have hah : a = h := by injection hm
            subst hah
            exact absurd hseen hn
          · exact ⟨hm, hn⟩
      · rename_i hnot
        simp only [List.mem_cons]
        rw [ih (h :: seen) a]
        constructor
        · rintro (rfl | ⟨hm, hn⟩)
          · exact ⟨Or.inl rfl, hnot⟩
          · refine ⟨Or.inr hm, fun hs => hn (List.mem_cons_of_mem h hs)⟩
        · rintro ⟨hm | hm, hn⟩
          · exact Or.inl (by injection hm)
          · by_cases hah : a = h
            · exact Or.inl (by rw [hah])
            · exact Or.inr ⟨hm, by
                intro hmem
                rcases List.mem_cons.mp hmem with rfl | hs
                · exact hah rfl
                · exact hn hs⟩

theorem pipeRun_cons_sn (h : Nat) (s : FileStats) (es : List TaskEntry) (seen : List Nat) :
    pipeRun ({ hash := some h, result := some s } :: es) seen
      = if h ∈ seen then pipeRun es seen
        else if 0 < s.total then s :: pipeRun es (h :: seen) else pipeRun es (h :: seen) := rfl

theorem pipeRun_cons_snn (h : Nat) (es : List TaskEntry) (seen : List Nat) :
    pipeRun ({ hash := some h, result := none } :: es) seen
      = if h ∈ seen then pipeRun es seen else pipeRun es (h :: seen) := rfl

theorem pipeRun_cons_ns (s : FileStats) (es : List TaskEntry) (seen : List Nat) :
    pipeRun ({ hash := none, result := some s } :: es) seen
      = if 0 < s.total then s :: pipeRun es seen else pipeRun es seen := rfl

theorem pipeRun_cons_nn (es : List TaskEntry) (seen : List Nat) :
    pipeRun ({ hash := none, result := none } :: es) seen = pipeRun es seen := rfl

theorem newHashes_cons_s (h : Nat) (er : Option FileStats) (es : List TaskEntry) (seen : List Nat) :
    newHashes ({ hash := some h, result := er } :: es) seen
      = if h ∈ seen then newHashes es seen else h :: newHashes es (h :: seen) := rfl

theorem newHashes_cons_n (er : Option FileStats) (es : List TaskEntry) (seen : List Nat) :
    newHashes ({ hash := none, result := er } :: es) seen = newHashes es seen := rfl

theorem noHashPart_cons_hashed (h : Nat) (er : Option FileStats) (es : List TaskEntry) :
    noHashPart ({ hash := some h, result := er } :: es) = noHashPart es := by
  simp [noHashPart]

theorem noHashPart_cons_failed (es : List TaskEntry) :
    noHashPart ({ hash := none, result := none } :: es) = noHashPart es := by
  simp [noHashPart, List.filter_cons, List.filterMap_cons]

theorem noHashPart_cons_unhashed (s : FileStats) (es : List TaskEntry) :
    noHashPart ({ hash := none, result := some s } :: es)
      = if 0 < s.total then s :: noHashPart es else noHashPart es := by
  simp [noHashPart, List.filter_cons, List.filterMap_cons]

theorem hashPart_cons_none (g : Nat → Option (Nat × Nat × Nat)) (h : Nat) (l : List Nat)
    (hg : g h = none) : hashPart g (h :: l) = hashPart g l := by
  simp [hashPart, List.filterMap_cons, hg]

theorem hashPart_cons_some (g : Nat → Option (Nat × Nat × Nat)) (h : Nat) (l : List Nat)
    (c : Nat × Nat × Nat) (hg : g h = some c) :
    hashPart g (h :: l) = if 0 < cTotal c then c :: hashPart g l else hashPart g l := by
  simp only [hashPart, List.filterMap_cons, hg, List.filter_cons]
  split
  · rename_i h2; rw [if_pos (by simpa using h2)]
  · rename_i h2; rw [if_neg (by simpa using h2)]

theorem pipeRun_perm_char (g : Nat → Option (Nat × Nat × Nat)) :
    ∀ (es : List TaskEntry) (seen : List Nat),
      (∀ e ∈ es, hashConsistent g e) →
      ((pipeRun es seen).map countsOf).Perm
        (hashPart g (newHashes es seen) ++ (noHashPart es).map countsOf) := by
  intro es
  induction es with
  | nil => intro seen _; simp [pipeRun, newHashes, noHashPart, hashPart]
  | cons e es ih =>
    intro seen Hg
    have Hgtail : ∀ x ∈ es, hashConsistent g x := fun x hx => Hg x (List.mem_cons_of_mem e hx)
    have Hghead : hashConsistent g e := Hg e (List.mem_cons_self e es)
    obtain ⟨eh, er⟩ := e
    rcases eh with _ | h
    · rcases er with _ | s
      · rw [noHashPart_cons_failed, pipeRun_cons_nn, newHashes_cons_n]
        exact ih seen Hgtail
      · rw [noHashPart_cons_unhashed, pipeRun_cons_ns, newHashes_cons_n]
        by_cases hs : 0 < s.total
        · rw [if_pos hs, if_pos hs, List.map_cons, List.map_cons]
          have hmid :
              (countsOf s :: (hashPart g (newHashes es seen) ++ (noHashPart es).map countsOf)).Perm
                (hashPart g (newHashes es seen) ++ countsOf s :: (noHashPart es).map countsOf) :=
            List.perm_middle.symm
          exact ((ih seen Hgtail).cons (countsOf s)).trans hmid
        · rw [if_neg hs, if_neg hs]
          exact ih seen Hgtail
    · have hgh : (er.map countsOf) = g h := by
        have := Hghead
        unfold hashConsistent at this
        exact this
      rw [noHashPart_cons_hashed, newHashes_cons_s]
      by_cases hseen : h ∈ seen
      · rcases er with _ | s
        · rw [pipeRun_cons_snn, if_pos hseen, if_pos hseen]
          exact ih seen Hgtail
        · rw [pipeRun_cons_sn, if_pos hseen, if_pos hseen]
          exact ih seen Hgtail
      · rcases er with _ | s
        · have hghn : g h = none := by simpa using hgh.symm
          rw [pipeRun_cons_snn, if_neg hseen, if_neg hseen, hashPart_cons_none g h _ hghn]
          exact ih (h :: seen) Hgtail
        · have hghs : g h = some (countsOf s) := by simpa using hgh.symm
          rw [pipeRun_cons_sn, if_neg hseen, if_neg hseen,
            hashPart_cons_some g h _ (countsOf s) hghs]
          by_cases hs : 0 < s.total
          · rw [if_pos hs, if_pos (show 0 < cTotal (countsOf s) from hs), List.map_cons]
            exact ((ih (h :: seen) Hgtail).cons (countsOf s))
          · rw [if_neg hs, if_neg (show ¬ 0 < cTotal (countsOf s) from hs)]
            exact ih (h :: seen) Hgtail

theorem pipeRun_perm (g : Nat → Option (Nat × Nat × Nat)) (es es' : List TaskEntry)
    (Hg : ∀ e ∈ es, hashConsistent g e) (hp : es.Perm es') :
    ((pipeRun es []).map countsOf).Perm ((pipeRun es' []).map countsOf) := by
  have Hg' : ∀ e ∈ es', hashConsistent g e := fun e he => Hg e (hp.symm.subset he)
  have h1 := pipeRun_perm_char g es [] Hg
  have h2 := pipeRun_perm_char g es' [] Hg'
  have hnh : (newHashes es []).Perm (newHashes es' []) := by
    refine (List.perm_ext_iff_of_nodup (newHashes_nodup_notMem es []).1
      (newHashes_nodup_notMem es' []).1).mpr ?_
    intro a
    rw [newHashes_mem, newHashes_mem]
    have := (hp.map TaskEntry.hash).mem_iff (a := some a)
    simp only [List.not_mem_nil]
    tauto
  have hmidperm : (hashPart g (newHashes es [])).Perm (hashPart g (newHashes es' [])) :=
    (hnh.filterMap g).filter _
  have hnoperm : ((noHashPart es).map countsOf).Perm ((noHashPart es').map countsOf) :=
    ((((hp.filter _).filterMap TaskEntry.result).filter _).map countsOf)
  exact h1.trans ((hmidperm.append hnoperm).trans h2.symm)

theorem addFile_sums (fs : FileStats) :
    ∀ (acc : List LanguageStats),
      ((addFile acc fs).map LanguageStats.files).sum = (acc.map LanguageStats.files).sum + 1 ∧
      ((addFile acc fs).map LanguageStats.code).sum = (acc.map LanguageStats.code).sum + fs.code ∧
      ((addFile acc fs).map LanguageStats.comments).sum
        = (acc.map LanguageStats.comments).sum + fs.comments ∧
      ((addFile acc fs).map LanguageStats.blanks).sum
        = (acc.map LanguageStats.blanks).sum + fs.blanks := by
  intro acc
  induction acc with
  | nil => simp [addFile, LanguageStats.add]
  | cons e acc ih =>
    simp only [addFile]
    split
    · simp only [List.map_cons, List.sum_cons, LanguageStats.add]
      refine ⟨by omega, by omega, by omega, by omega⟩
    · obtain ⟨i1, i2, i3, i4⟩ := ih
      simp only [List.map_cons, List.sum_cons, i1, i2, i3, i4]
      refine ⟨by omega, by omega, by omega, by omega⟩

theorem aggregates_sums :
    ∀ (stats : List FileStats) (acc : List LanguageStats),
      (((stats.foldl addFile acc).map LanguageStats.files).sum
        = (acc.map LanguageStats.files).sum + stats.length) ∧
      (((stats.foldl addFile acc).map LanguageStats.code).sum
        = (acc.map LanguageStats.code).sum + (stats.map FileStats.code).sum) ∧
      (((stats.foldl addFile acc).map LanguageStats.comments).sum
        = (acc.map LanguageStats.comments).sum + (stats.map FileStats.comments).sum) ∧
      (((stats.foldl addFile acc).map LanguageStats.blanks).sum
        = (acc.map LanguageStats.blanks).sum + (stats.map FileStats.blanks).sum) := by
  intro stats
  induction stats with
  | nil => intro acc; simp
  | cons s stats ih =>
    intro acc
    simp only [List.foldl_cons, List.map_cons, List.sum_cons, List.length_cons]
    obtain ⟨i1, i2, i3, i4⟩ := ih (addFile acc s)
    obtain ⟨a1, a2, a3, a4⟩ := addFile_sums s acc
    rw [i1, i2, i3, i4, a1, a2, a3, a4]
    refine ⟨by omega, by omega, by omega, by omega⟩

theorem sortLangs_map_sum (f : LanguageStats → Nat) (l : List LanguageStats) :
    ((sortLangs l).map f).sum = (l.map f).sum :=
  ((List.perm_insertionSort codeDesc l).map f).sum_eq

theorem summary_totals (l : List FileStats) :
    (from_file_stats l).total_files = l.length ∧
    (from_file_stats l).total_code = (l.map FileStats.code).sum ∧
    (from_file_stats l).total_comments = (l.map FileStats.comments).sum ∧
    (from_file_stats l).total_blanks = (l.map FileStats.blanks).sum := by
  obtain ⟨a1, a2, a3, a4⟩ := aggregates_sums l []
  simp only [from_file_stats, sortLangs_map_sum, aggregates]
  simp only [List.map_nil, List.sum_nil, Nat.zero_add] at a1 a2 a3 a4
  exact ⟨a1, a2, a3, a4⟩

theorem pipeKept_cons_sn (h : Nat) (s : FileStats) (es : List TaskEntry) (seen : List Nat) :
    pipeKept ({ hash := some h, result := some s } :: es) seen
      = if h ∈ seen then pipeKept es seen
        else if 0 < s.total then { hash := some h, result := some s } :: pipeKept es (h :: seen)
          else pipeKept es (h :: seen) := rfl

theorem pipeKept_cons_snn (h : Nat) (es : List TaskEntry) (seen : List Nat) :
    pipeKept ({ hash := some h, result := none } :: es) seen
      = if h ∈ seen then pipeKept es seen else pipeKept es (h :: seen) := rfl

theorem pipeKept_cons_ns (s : FileStats) (es : List TaskEntry) (seen : List Nat) :
    pipeKept ({ hash := none, result := some s } :: es) seen
      = if 0 < s.total then { hash := none, result := some s } :: pipeKept es seen
        else pipeKept es seen := rfl

theorem pipeKept_cons_nn (es : List TaskEntry) (seen : List Nat) :
    pipeKept ({ hash := none, result := none } :: es) seen = pipeKept es seen := rfl

theorem pipeKept_countP_zero (h₀ : Nat) :
    ∀ (es : List TaskEntry) (seen : List Nat), h₀ ∈ seen →
      ((pipeKept es seen).countP (fun e => e.hash == some h₀)) = 0 := by
  intro es
  induction es with
  | nil => intro seen _; simp [pipeKept]
  | cons e es ih =>
    intro seen hseen
    obtain ⟨eh, er⟩ := e
    rcases eh with _ | h
    · rcases er with _ | s
      · rw [pipeKept_cons_nn]; exact ih seen hseen
      · rw [pipeKept_cons_ns]
        split
        · rw [List.countP_cons_of_neg _ _ (by simp)]
          exact ih seen hseen
        · exact ih seen hseen
    · rcases er with _ | s
      · rw [pipeKept_cons_snn]
        split
        · exact ih seen hseen
        · exact ih _ (List.mem_cons_of_mem h hseen)
      · rw [pipeKept_cons_sn]
        split
        · exact ih seen hseen
        · rename_i hnot
          have hne : h ≠ h₀ := fun hEq => hnot (hEq ▸ hseen)
          split
          · rw [List.countP_cons_of_neg _ _ (by simp [hne])]
            exact ih _ (List.mem_cons_of_mem h hseen)
          · exact ih _ (List.mem_cons_of_mem h hseen)

theorem pipeKept_countP_one (h₀ : Nat) :
    ∀ (es : List TaskEntry) (seen : List Nat), h₀ ∉ seen →
      (∃ e ∈ es, e.hash = some h₀) →
      (∀ e ∈ es, e.hash = some h₀ → ∃ s, e.result = some s ∧ 0 < s.total) →
      ((pipeKept es seen).countP (fun e => e.hash == some h₀)) = 1 := by
  intro es
  induction es with
  | nil => intro seen _ hex _; simp at hex
  | cons e es ih =>
    intro seen hnot hex hok
    have hoktail : ∀ x ∈ es, x.hash = some h₀ → ∃ s, x.result = some s ∧ 0 < s.total :=
      fun x hx => hok x (List.mem_cons_of_mem e hx)
    obtain ⟨eh, er⟩ := e
    by_cases hhead : eh = some h₀
    · subst hhead
      obtain ⟨s, hs, hspos⟩ := hok _ (List.mem_cons_self _ es) rfl
      simp only at hs
      subst hs
      rw [pipeKept_cons_sn, if_neg hnot, if_pos hspos,
        List.countP_cons_of_pos _ _ (by simp),
        pipeKept_countP_zero h₀ es (h₀ :: seen) (List.mem_cons_self h₀ seen)]
    · have hex' : ∃ x ∈ es, x.hash = some h₀ := by
        rcases hex with ⟨x, hx, hhash⟩
        rcases List.mem_cons.mp hx with rfl | hx2
        · exact absurd hhash hhead
        · exact ⟨x, hx2, hhash⟩
      rcases eh with _ | h
      · rcases er with _ | s
        · rw [pipeKept_cons_nn]; exact ih seen hnot hex' hoktail
        · rw [pipeKept_cons_ns]
          split
          · rw [List.countP_cons_of_neg _ _ (by simp)]
            exact ih seen hnot hex' hoktail
          · exact ih seen hnot hex' hoktail
      · have hne : h ≠ h₀ := fun hEq => hhead (by rw [hEq])
        have hnot' : h₀ ∉ h :: seen := by
          intro hmem
          rcases List.mem_cons.mp hmem with hEq | hs
          · exact hne hEq.symm
          · exact hnot hs
        rcases er with _ | s
        · rw [pipeKept_cons_snn]
          split
          · exact ih seen hnot hex' hoktail
          · exact ih _ hnot' hex' hoktail
        · rw [pipeKept_cons_sn]
          split
          · exact ih seen hnot hex' hoktail
          · split
            · rw [List.countP_cons_of_neg _ _ (by simp [hne])]
              exact ih _ hnot' hex' hoktail
            · exact ih _ hnot' hex' hoktail

/-- `count_lines` on the one-line file `// hi` read as Rust (a comment line). -/
def dupRustStats : FileStats := count_lines "a.rs" false ["// hi"] rustLang

/-- The same bytes read as Python (`//` is not a Python comment: a code line). -/
def dupPyStats : FileStats := count_lines "b.py" false ["// hi"] pythonLang

/-- The same bytes again as Rust under another path (the realistic duplicate). -/
def dupRustStats2 : FileStats := count_lines "b.rs" false ["// hi"] rustLang

/-- Task for `a.rs` with content hash 42. -/
def dupRustEntry : TaskEntry := { hash := some 42, result := some dupRustStats }

/-- Task for `b.py` — byte-identical content, so the same content hash 42. -/
def dupPyEntry : TaskEntry := { hash := some 42, result := some dupPyStats }

/-- Task for `b.rs` — byte-identical content, same hash, same ruleset. -/
def dupRustEntry2 : TaskEntry := { hash := some 42, result := some dupRustStats2 }

/-- Counterexample to C2 as stated: two files with byte-identical content
`// hi` (each non-binary, one line, hashed without error) but different
extensions — `a.rs` detected as Rust, `b.py` as Python. The content hash sees
only the bytes, so dedup keeps whichever task runs first, and the two possible
survivors classify the line differently: one processing order yields
`comments = 1, code = 0`, the other `comments = 0, code = 1` — the overall
totals are not the same for every processing order. -/
theorem C2_counterexample :
    List.Perm [dupRustEntry, dupPyEntry] [dupPyEntry, dupRustEntry] ∧
    dupRustStats.total = 1 ∧ dupPyStats.total = 1 ∧
    (analyze_with_config [dupRustEntry, dupPyEntry]).total_comments = 1 ∧
    (analyze_with_config [dupPyEntry, dupRustEntry]).total_comments = 0 ∧
    (analyze_with_config [dupRustEntry, dupPyEntry]).total_code = 0 ∧
    (analyze_with_config [dupPyEntry, dupRustEntry]).total_code = 1 :=
  ⟨List.Perm.swap dupPyEntry dupRustEntry [], by decide, by decide, by decide, by decide,
    by decide, by decide⟩

/-- C2 (amended): in the aggregation pipeline, for every collection of input
files containing N files with byte-identical content (each non-binary, with at
least one line, and hashed without error — hash `h₀` here), exactly one of the
N contributes to the summary; and provided the line counters produced for a
task are a function of its content hash alone (as when all duplicates resolve
to the same ruleset — without this proviso the counterexample above applies),
the overall totals (files, code, comments, blanks) are the same for every
processing order of the tasks. -/
theorem C2_dedup (entries entries' : List TaskEntry) (g : Nat → Option (Nat × Nat × Nat))
    (h₀ : Nat)
    (Hg : ∀ e ∈ entries, hashConsistent g e)
    (Hperm : entries.Perm entries')
    (Hex : ∃ e ∈ entries, e.hash = some h₀)
    (Hok : ∀ e ∈ entries, e.hash = some h₀ → ∃ s, e.result = some s ∧ 0 < s.total) :
    ((pipeKept entries []).countP (fun e => e.hash == some h₀)) = 1 ∧
    (analyze_with_config entries).total_files = (analyze_with_config entries').total_files ∧
    (analyze_with_config entries).total_code = (analyze_with_config entries').total_code ∧
    (analyze_with_config entries).total_comments
      = (analyze_with_config entries').total_comments ∧
    (analyze_with_config entries).total_blanks = (analyze_with_config entries').total_blanks := by
  have hcperm := pipeRun_perm g entries entries' Hg Hperm
  obtain ⟨t1, t2, t3, t4⟩ := summary_totals (pipeRun entries [])
  obtain ⟨u1, u2, u3, u4⟩ := summary_totals (pipeRun entries' [])
  refine ⟨pipeKept_countP_one h₀ entries [] (by simp) Hex Hok, ?_, ?_, ?_, ?_⟩
  · show (from_file_stats (pipeRun entries [])).total_files
      = (from_file_stats (pipeRun entries' [])).total_files
    rw [t1, u1]
    simpa using hcperm.length_eq
  · show (from_file_stats (pipeRun entries [])).total_code
      = (from_file_stats (pipeRun entries' [])).total_code
    rw [t2, u2]
    have := (hcperm.map (fun c => c.1)).sum_eq
    simpa [List.map_map] using this
  · show (from_file_stats (pipeRun entries [])).total_comments
      = (from_file_stats (pipeRun entries' [])).total_comments
    rw [t3, u3]
    have := (hcperm.map (fun c => c.2.1)).sum_eq
    simpa [List.map_map] using this
  · show (from_file_stats (pipeRun entries [])).total_blanks
      = (from_file_stats (pipeRun entries' [])).total_blanks
    rw [t4, u4]
    have := (hcperm.map (fun c => c.2.2)).sum_eq
    simpa [List.map_map] using this

/-- Witness for C2 (amended) at a concrete input: two Rust files `a.rs` and
`b.rs` with identical content `// hi`, hash 42, in the two possible orders:
exactly one contributes and the comment totals agree. -/
theorem C2_witness :
    ((pipeKept [dupRustEntry, dupRustEntry2] []).countP (fun e => e.hash == some 42)) = 1 ∧
    (analyze_with_config [dupRustEntry, dupRustEntry2]).total_comments
      = (analyze_with_config [dupRustEntry2, dupRustEntry]).total_comments := by
  have h := C2_dedup [dupRustEntry, dupRustEntry2] [dupRustEntry2, dupRustEntry]
    (fun _ => some (0, 1, 0)) 42
    (by decide)
    (List.Perm.swap dupRustEntry2 dupRustEntry [])
    ⟨dupRustEntry, List.mem_cons_self _ _, by decide⟩
    (by
      intro e he hh
      rcases List.mem_cons.mp he with rfl | he2
      · exact ⟨dupRustStats, rfl, by decide⟩
      · rcases List.mem_cons.mp he2 with rfl | he3
        · exact ⟨dupRustStats2, rfl, by decide⟩
        · simp at he3)
  exact ⟨h.1, h.2.2.2.1⟩

/-! ### C8: the dedup toggle `skip_uniqueness` -/

/-- Embedding of the `skip_uniqueness` field of `WalkerConfig`
(`src/walker.rs` line 31); the walker configuration's other fields are not
involved in any claim settled here. The field is set from the CLI flag
(`src/cli.rs` line 265) but no code under `src/` ever reads it. -/
structure WalkerConfig where
  skip_uniqueness : Bool
deriving DecidableEq

/-- The CLI counting pipeline of `src/main.rs` (lines 80–95): each task runs
`count_lines` (`none` models an `Err`) and stats with positive totals are
kept. The pipeline contains no content-hash stage at all, whatever the walker
configuration says. -/
def cli_pipeline (_cfg : WalkerConfig) (results : List (Option FileStats)) : List FileStats :=
  results.filterMap (fun r =>
    match r with
    | some s => if 0 < s.total then some s else none
    | none => none)

/-- C8: the claim fails on the code — `skip_uniqueness` controls nothing.
The CLI pipeline is one and the same function for every configuration value;
with the toggle left at `false` (dedup supposedly enabled) two byte-identical
files are both counted; and the library pipeline of `analyze_with_config`,
whose `AnalyzeConfig` has no dedup toggle at all, hashes and suppresses the
duplicate unconditionally. -/
theorem C8_skip_uniqueness_dead :
    (∀ (cfg cfg' : WalkerConfig) (results : List (Option FileStats)),
        cli_pipeline cfg results = cli_pipeline cfg' results) ∧
    cli_pipeline { skip_uniqueness := false } [some dupRustStats, some dupRustStats2]
      = [dupRustStats, dupRustStats2] ∧
    pipeRun [dupRustEntry, dupRustEntry2] [] = [dupRustStats] :=
  ⟨fun _ _ _ => rfl, by decide, by decide⟩

/-! ### C5: language detection order (embedding of `detect_language` in
`src/languages.rs` lines 1225–1251) -/

/-- Rust's `Path::extension()` on a file name: the part after the last `.`,
provided the part before that `.` is non-empty (`.gitignore` has none,
`foo.` has `some ""`). -/
def rustExtension (name : List Char) : Option (List Char) :=
  let rev := name.reverse
  let ext := rev.takeWhile (fun c => c ≠ '.')
  let rest := rev.drop (ext.length + 1)
  if rest.isEmpty then none else some ext.reverse

/-- The registry state `detect_language` consults: the custom-language overlay
(`CustomLanguages`: lowercased extension → definition name → ruleset), the
static `FILENAME_MAP` and `EXTENSION_MAP` (name-valued), and `LANGUAGES`.
The `phf` maps have unique keys, so association-list lookup models them. -/
structure Registry where
  customExts : List (String × String)
  customLangs : List (String × Language)
  filenameMap : List (String × String)
  extensionMap : List (String × String)
  languages : List (String × Language)

/-- Step 1 of `detect_language`: `CustomLanguages::get_by_extension` on the
path's extension (lowercased), when the path has one. -/
def customStep (reg : Registry) (fname : String) : Option Language :=
  match rustExtension fname.toList with
  | some ext =>
    match reg.customExts.lookup (String.mk (ext.map Char.toLower)) with
    | some nm => reg.customLangs.lookup nm
    | none => none
  | none => none

/-- The `*.g.cs` / `*.designer.cs` test on the lowercased file name. -/
def genSuffix (fname : String) : Bool :=
  let lower := fname.toList.map Char.toLower
  (".g.cs".toList.isSuffixOf lower) || (".designer.cs".toList.isSuffixOf lower)

/-- Embedding of `detect_language`. A path enters only through its base name
(`Path::file_name`) — both the filename map and `Path::extension` are
functions of the base name — so the model takes the base name. -/
def detect_language (reg : Registry) (fname : String) : Option Language :=
  match customStep reg fname with
  | some lang => some lang
  | none =>
    match reg.filenameMap.lookup fname with
    | some lang_name => reg.languages.lookup lang_name
    | none =>
      if genSuffix fname then
        reg.languages.lookup "C# Generated"
      else
        match rustExtension fname.toList with
        | some ext =>
          match reg.extensionMap.lookup (String.mk ext) with
          | some lang_name => reg.languages.lookup lang_name
          | none => none
        | none => none

/-- C5: language detection resolves in the claimed order — user-defined
extension mapping first; else the full base name against the filename map
(winning over any extension-map hit); else the lowercased `.g.cs` /
`.designer.cs` suffix rule giving "C# Generated"; else the built-in extension
map; else none. -/
theorem C5_detect_order (reg : Registry) (fname : String) :
    (∀ lang, customStep reg fname = some lang → detect_language reg fname = some lang) ∧
    (customStep reg fname = none →
      ∀ nm lang, reg.filenameMap.lookup fname = some nm →
        reg.languages.lookup nm = some lang →
        detect_language reg fname = some lang) ∧
    (customStep reg fname = none →
      reg.filenameMap.lookup fname = none →
      genSuffix fname = true →
      detect_language reg fname = reg.languages.lookup "C# Generated") ∧
    (customStep reg fname = none →
      reg.filenameMap.lookup fname = none →
      genSuffix fname = false →
      ∀ ext nm, rustExtension fname.toList = some ext →
        reg.extensionMap.lookup (String.mk ext) = some nm →
        detect_language reg fname = reg.languages.lookup nm) ∧
    (customStep reg fname = none →
      reg.filenameMap.lookup fname = none →
      genSuffix fname = false →
      (rustExtension fname.toList).bind
        (fun ext => reg.extensionMap.lookup (String.mk ext)) = none →
      detect_language reg fname = none) := by
  refine ⟨?_, ?_, ?_, ?_, ?_⟩
  · intro lang h
    simp [detect_language, h]
  · intro hc nm lang hf hl
    simp [detect_language, hc, hf, hl]
  · intro hc hf hg
    simp [detect_language, hc, hf, hg]
  · intro hc hf hg ext nm he hm
    simp only [String.toList] at he
    simp [detect_language, hc, hf, hg, he, hm]
  · intro hc hf hg hb
    simp only [String.toList] at hb
    rcases he : rustExtension fname.data with _ | ext
    · simp [detect_language, hc, hf, hg, he]
    · rw [he] at hb
      simp only [Option.some_bind] at hb
      simp [detect_language, hc, hf, hg, he, hb]

/-- A fragment of the real registry: the `"CMakeLists.txt" => "CMake"` and
`"Makefile" => "Makefile"` filename entries, the `"txt" => "Text"`,
`"rs" => "Rust"` extension entries, and the corresponding `LANGUAGES` rows
(no custom languages loaded). -/
def sampleRegistry : Registry :=
  { customExts := []
    customLangs := []
    filenameMap := [("CMakeLists.txt", "CMake"), ("Makefile", "Makefile")]
    extensionMap := [("txt", "Text"), ("rs", "Rust")]
    languages := [("CMake", cmakeLang), ("Makefile", makefileLang), ("Text", textLang),
      ("Rust", rustLang), ("C# Generated", csGeneratedLang)] }

/-- Witness for C5 at a concrete input: `CMakeLists.txt` has an extension-map
hit (`txt` → Text) but the filename map wins: detection yields CMake. -/
theorem C5_witness :
    detect_language sampleRegistry "CMakeLists.txt" = some cmakeLang :=
  (C5_detect_order sampleRegistry "CMakeLists.txt").2.1 (by decide) "CMake" cmakeLang
    (by decide) (by decide)

end Rloc
